import Mathlib

/-!
Verification development for `make_deploy_commit.py`, a script that creates a
deployment branch and commit for a pull-request change in an airflow monorepo.

Python strings are embedded as `List Char`; the interactive prompt reads its
answer from an oracle `respond : Str → Str` giving the operator's raw input for
each prompt message; the git backend is embedded as an environment carrying the
commit history, and the run is embedded as a pure function producing a result,
an event trace and the final content of the deploy manifest file.
-/

abbrev Str := List Char

/-! ### Interactive prompt

Source (lines 53-58):
```
def prompt_if_continue(message):
    response = input(f'<{message}> Do You Want To Continue? (y/n): ')
    if response.lower() == 'y':
        return True
    return False
```
`respond message` is the operator's raw input for the prompt built from
`message`. -/

def pyLower (s : Str) : Str := s.map Char.toLower

def prompt_if_continue (respond : Str → Str) (message : Str) : Bool :=
  decide (pyLower (respond message) = "y".data)

/-! ### `check_commit`: the commit-message matcher

Source (lines 45-50):
```
def check_commit(message, pull_request_id):
    regex_result = re.findall(r'\(#(\d+)\)', message)
    if len(regex_result) > 0:
        return regex_result[0] == str(pull_request_id)
    return False
```
The regex matches a literal open paren, a hash sign, one or more digits and a
close paren, capturing the digits.  `parseToken` decides whether the pattern
matches at the head of a string (the digit run it takes is maximal, and
backtracking cannot produce a shorter one, because the character after a
shorter run is a digit, not the close paren).  `findAllTokens` scans left to
right and resumes after the end of each match, as `re.findall` does; the fuel
argument bounds the recursion by the string length.  `\d` is modelled as the
decimal digits 0-9. -/

def parseToken (s : Str) : Option Str :=
  match s with
  | c1 :: c2 :: rest =>
    if c1 = '(' ∧ c2 = '#' then
      let ds := rest.takeWhile Char.isDigit
      if ds = [] then none
      else if (rest.dropWhile Char.isDigit).head? = some ')' then some ds
      else none
    else none
  | _ => none

def findAllTokens : Nat → Str → List Str
  | 0, _ => []
  | _, [] => []
  | fuel + 1, c :: rest =>
    match parseToken (c :: rest) with
    | some ds => ds :: findAllTokens fuel ((c :: rest).drop (ds.length + 3))
    | none => findAllTokens fuel rest

/-- The leftmost regex match: head of the `re.findall` result. -/
def firstToken : Str → Option Str
  | [] => none
  | c :: rest =>
    match parseToken (c :: rest) with
    | some ds => some ds
    | none => firstToken rest

def check_commit (message : Str) (pull_request_id : Nat) : Bool :=
  match findAllTokens message.length message with
  | r :: _ => decide (r = (Nat.repr pull_request_id).data)
  | [] => false

/-- The message carries a well-formed parenthesized token at position `i` whose
captured digit group is `ds`: the suffix starting at `i` is an open paren, a
hash sign, the nonempty all-digit group `ds`, a close paren, and anything. -/
def tokenAt (msg : Str) (i : Nat) (ds : Str) : Prop :=
  ds ≠ [] ∧ (∀ c ∈ ds, c.isDigit = true) ∧
    ∃ rest, msg.drop i = '(' :: '#' :: (ds ++ ')' :: rest)

/-! ### `find_commit`: the commit locator

Source (lines 61-70):
```
def find_commit(commit_list, pull_request_id, author_name):
    for commit in commit_list:
        if check_commit(commit.summary, pull_request_id):
            if commit.author.name != author_name:
                if prompt_if_continue(f'Commit {commit.hexsha} is not authored by {author_name}'):
                    return commit
            else:
                return commit
    return None
```
`findCommitLog` additionally returns the list of prompt messages issued, in
order; `find_commit` is its first component, as in the source. -/

structure Commit where
  hexsha : Str
  summary : Str
  authorName : Str
  files : List Str
deriving DecidableEq

def promptAuthorMsg (commit : Commit) (author_name : Str) : Str :=
  "Commit ".data ++ commit.hexsha ++ " is not authored by ".data ++ author_name

def findCommitLog (respond : Str → Str) :
    List Commit → Nat → Str → Option Commit × List Str
  | [], _, _ => (none, [])
  | commit :: rest, pull_request_id, author_name =>
    if check_commit commit.summary pull_request_id then
      if commit.authorName ≠ author_name then
        if prompt_if_continue respond (promptAuthorMsg commit author_name) then
          (some commit, [promptAuthorMsg commit author_name])
        else
          ((findCommitLog respond rest pull_request_id author_name).1,
            promptAuthorMsg commit author_name ::
              (findCommitLog respond rest pull_request_id author_name).2)
      else (some commit, [])
    else findCommitLog respond rest pull_request_id author_name

def find_commit (respond : Str → Str) (commit_list : List Commit)
    (pull_request_id : Nat) (author_name : Str) : Option Commit :=
  (findCommitLog respond commit_list pull_request_id author_name).1

/-- A commit is accepted by the scan: its summary matches the PR id, and its
author is the expected one or the operator accepts the mismatch prompt. -/
def acceptedBy (respond : Str → Str) (pull_request_id : Nat) (author_name : Str)
    (commit : Commit) : Bool :=
  check_commit commit.summary pull_request_id &&
    (decide (commit.authorName = author_name) ||
      prompt_if_continue respond (promptAuthorMsg commit author_name))

/-! ### `check_changes_in_dag_only`: the change-scope validator

Source (lines 73-81):
```
def check_changes_in_dag_only(files_changed, dag_name):
    for file in files_changed:
        if not (file.startswith('dags/') and file.split('/')[1] == dag_name):
            if prompt_if_continue(f'File {file} is not in dags/{dag_name} directory'):
                continue
            else:
                return False
    return True
```
`pyStartsWith` is `str.startswith`, `splitSlash` is `str.split('/')` (the
index access `[1]` cannot fail, because the short-circuit guard guarantees a
separator is present).  `checkChangesLog` additionally returns the list of
prompt messages issued, in order. -/

def pyStartsWith : Str → Str → Bool
  | _, [] => true
  | [], _ :: _ => false
  | c :: s, p :: ps => c == p && pyStartsWith s ps

def splitSlash : Str → List Str
  | [] => [[]]
  | c :: rest =>
    match splitSlash rest with
    | [] => [[]]
    | s :: ss => if c = '/' then [] :: s :: ss else (c :: s) :: ss

/-- The characters a split segment is made of. -/
def notSlash (c : Char) : Bool := decide (c ≠ '/')

def inDagDir (file dag_name : Str) : Bool :=
  pyStartsWith file "dags/".data && decide ((splitSlash file)[1]? = some dag_name)

def violMsg (file dag_name : Str) : Str :=
  "File ".data ++ file ++ " is not in dags/".data ++ dag_name ++ " directory".data

def checkChangesLog (respond : Str → Str) : List Str → Str → Bool × List Str
  | [], _ => (true, [])
  | file :: rest, dag_name =>
    if inDagDir file dag_name then checkChangesLog respond rest dag_name
    else if prompt_if_continue respond (violMsg file dag_name) then
      ((checkChangesLog respond rest dag_name).1,
        violMsg file dag_name :: (checkChangesLog respond rest dag_name).2)
    else (false, [violMsg file dag_name])

def check_changes_in_dag_only (respond : Str → Str) (files_changed : List Str)
    (dag_name : Str) : Bool :=
  (checkChangesLog respond files_changed dag_name).1

/-- The spec's reading of the scope condition: the path begins with the fixed
prefix directory followed immediately by a subdirectory segment equal to the
workflow name, that is, it decomposes as the prefix, the workflow name and an
optional further slash-separated remainder.  A segment cannot contain the
separator. -/
def decomposesInDag (file dag_name : Str) : Prop :=
  ('/' ∉ dag_name) ∧
    (file = "dags/".data ++ dag_name ∨
      ∃ t, file = "dags/".data ++ dag_name ++ '/' :: t)

/-! ### The deploy manifest: a JSON document

`updateManifest` embeds lines 110-112:
```
    with open(deploy_path, 'r') as f:
        data = json.load(f)
        data['version']['dags'][args.pr_dag_name] = commit_hash
```
A missing key raises `KeyError`; indexing a non-dictionary raises `TypeError`.
Dictionary assignment overwrites the value in place when the key is present
(keeping its position) and appends the key otherwise. -/

inductive Json where
  | null
  | bool (b : Bool)
  | num (n : Int)
  | str (s : Str)
  | arr (elems : List Json)
  | obj (fields : List (Str × Json))

def getField : List (Str × Json) → Str → Option Json
  | [], _ => none
  | (k, v) :: rest, key => if k = key then some v else getField rest key

def setField : List (Str × Json) → Str → Json → List (Str × Json)
  | [], key, v => [(key, v)]
  | (k, w) :: rest, key, v =>
    if k = key then (k, v) :: rest else (k, w) :: setField rest key v

inductive PyErr where
  | keyError (k : Str)
  | typeError
deriving DecidableEq

def pyErrMsg : PyErr → Str
  | .keyError k => "KeyError: ".data ++ k
  | .typeError => "TypeError".data

def updateManifest (data : Json) (dag_name commit_hash : Str) : Except PyErr Json :=
  match data with
  | .obj fs =>
    match getField fs "version".data with
    | none => .error (.keyError "version".data)
    | some v =>
      match v with
      | .obj vfs =>
        match getField vfs "dags".data with
        | none => .error (.keyError "dags".data)
        | some d =>
          match d with
          | .obj dfs =>
            .ok (.obj (setField fs "version".data
              (.obj (setField vfs "dags".data
                (.obj (setField dfs dag_name (.str commit_hash)))))))
          | _ => .error .typeError
      | _ => .error .typeError
  | _ => .error .typeError

/-! ### The run: `main`

Source (lines 84-135).  The environment fixes the resolved arguments, the
content of the deploy manifest file (`none` when the file does not exist), the
commit history of the main branch after the pull (newest first, as produced by
`repo.iter_commits`), the prompt oracle, and whether the first and the second
add+commit attempts raise `GitCommandError`.  The outcome records the way the
run ends (`fatal` for an assertion failure or an uncaught exception, `aborted`
for the logged early return, `success` otherwise), the trace of side-effecting
git and file events in order, and the final content of the deploy file. -/

structure Env where
  pr_id : Nat
  pr_author : Str
  pr_dag_name : Str
  deployFile : Option Json
  history : List Commit
  respond : Str → Str
  commitFail1 : Bool
  commitFail2 : Bool

inductive Ev where
  | checkoutMain
  | pull
  | branchCreate (name : Str)
  | manifestWrite
  | gitAdd
  | commitAttempt (m1 m2 : Str) (ok : Bool)
  | push (name : Str)
deriving DecidableEq

inductive RunResult where
  | fatal (msg : Str)
  | aborted
  | success
deriving DecidableEq

structure Outcome where
  result : RunResult
  events : List Ev
  deployFile : Option Json

def deployBranchName (pr_id : Nat) : Str :=
  "deploy-".data ++ (Nat.repr pr_id).data

def commitMsg1 (pr_id : Nat) : Str :=
  "Deploy PR for PR#".data ++ (Nat.repr pr_id).data

def commitMsg2 (pr_id : Nat) (commit_hash pr_author : Str) : Str :=
  "Deploy #".data ++ (Nat.repr pr_id).data ++ " with Commit hash: [".data ++
    commit_hash ++ "](https://github.com/moloco/airflow/commit/".data ++
    commit_hash ++ ")\nAuthor: ".data ++ pr_author

def mainRun (env : Env) : Outcome :=
  -- assert os.path.isfile(deploy_path): checked before any git operation
  match env.deployFile with
  | none => ⟨.fatal "Deploy file not found".data, [], none⟩
  | some data =>
    -- repo.git.checkout(main); repo.remotes.origin.pull()
    -- last_10_commits = list(repo.iter_commits(main_branch_name, max_count=10))
    let last_10_commits := env.history.take 10
    match find_commit env.respond last_10_commits env.pr_id env.pr_author with
    | none =>
      -- assert commit is not None, "Commit not found"
      ⟨.fatal "Commit not found".data, [.checkoutMain, .pull], some data⟩
    | some commit =>
      let commit_hash := commit.hexsha
      if check_changes_in_dag_only env.respond commit.files env.pr_dag_name then
        -- repo.create_head(f'deploy-{pr_id}').checkout(), then the mutation
        match updateManifest data env.pr_dag_name commit_hash with
        | .error e =>
          ⟨.fatal (pyErrMsg e),
            [.checkoutMain, .pull, .branchCreate (deployBranchName env.pr_id)],
            some data⟩
        | .ok data2 =>
          -- os.remove(deploy_path); json.dump(data, f, indent=4)
          if env.commitFail1 then
            if env.commitFail2 then
              ⟨.fatal "GitCommandError".data,
                [.checkoutMain, .pull,
                  .branchCreate (deployBranchName env.pr_id), .manifestWrite,
                  .gitAdd,
                  .commitAttempt (commitMsg1 env.pr_id)
                    (commitMsg2 env.pr_id commit_hash env.pr_author) false,
                  .gitAdd,
                  .commitAttempt (commitMsg1 env.pr_id)
                    (commitMsg2 env.pr_id commit_hash env.pr_author) false],
                some data2⟩
            else
              ⟨.success,
                [.checkoutMain, .pull,
                  .branchCreate (deployBranchName env.pr_id), .manifestWrite,
                  .gitAdd,
                  .commitAttempt (commitMsg1 env.pr_id)
                    (commitMsg2 env.pr_id commit_hash env.pr_author) false,
                  .gitAdd,
                  .commitAttempt (commitMsg1 env.pr_id)
                    (commitMsg2 env.pr_id commit_hash env.pr_author) true,
                  .push (deployBranchName env.pr_id)],
                some data2⟩
          else
            ⟨.success,
              [.checkoutMain, .pull,
                .branchCreate (deployBranchName env.pr_id), .manifestWrite,
                .gitAdd,
                .commitAttempt (commitMsg1 env.pr_id)
                  (commitMsg2 env.pr_id commit_hash env.pr_author) true,
                .push (deployBranchName env.pr_id)],
              some data2⟩
      else
        -- logging.error('User aborted'); return
        ⟨.aborted, [.checkoutMain, .pull], some data⟩

/-! ### Concrete sample data, used by the witness theorems -/

def sampleCommit : Commit :=
  ⟨"abc123".data, "fix: x (#42)".data, "alice".data, ["dags/install/a.py".data]⟩

def offScopeCommit : Commit :=
  ⟨"abc123".data, "fix: x (#42)".data, "alice".data, ["other/a.py".data]⟩

def sampleManifest : Json :=
  .obj [("version".data,
    .obj [("dags".data, .obj [("install".data, .str "abc123".data)])])]

def respondYes : Str → Str := fun _ => "y".data

def respondNo : Str → Str := fun _ => "n".data

def sampleEnv : Env :=
  ⟨42, "alice".data, "install".data, some sampleManifest, [sampleCommit],
    respondYes, false, false⟩

def abortEnv : Env :=
  ⟨42, "alice".data, "install".data, some sampleManifest, [offScopeCommit],
    respondNo, false, false⟩

def noMatchEnv : Env :=
  ⟨42, "alice".data, "install".data, some sampleManifest, [], respondYes,
    false, false⟩

def badManifestEnv : Env :=
  ⟨42, "alice".data, "install".data, some (.obj []), [sampleCommit],
    respondYes, false, false⟩

/-! ## Generic list helpers used by the token and path lemmas -/

theorem pred_of_mem_takeWhile {p : Char → Bool} :
    ∀ {l : Str} {c : Char}, c ∈ l.takeWhile p → p c = true := by
  intro l
  induction l with
  | nil => intro c h; simp [List.takeWhile] at h
  | cons a l ih =>
    intro c h
    by_cases hp : p a
    · rw [List.takeWhile_cons_of_pos hp] at h
      rcases List.mem_cons.mp h with rfl | h
      · exact hp
      · exact ih h
    · rw [List.takeWhile_cons_of_neg hp] at h
      simp at h

theorem takeWhile_app {p : Char → Bool} {ds : Str} (y : Char) (t : Str)
    (h : ∀ c ∈ ds, p c = true) (hy : p y = false) :
    (ds ++ y :: t).takeWhile p = ds := by
  induction ds with
  | nil => simp [List.takeWhile, hy]
  | cons a ds ih =>
    have ha : p a = true := h a (List.mem_cons_self a ds)
    simp only [List.cons_append, List.takeWhile_cons_of_pos ha]
    rw [ih (fun c hc => h c (List.mem_cons_of_mem a hc))]

theorem dropWhile_app {p : Char → Bool} {ds : Str} (y : Char) (t : Str)
    (h : ∀ c ∈ ds, p c = true) (hy : p y = false) :
    (ds ++ y :: t).dropWhile p = y :: t := by
  induction ds with
  | nil => simp [List.dropWhile, hy]
  | cons a ds ih =>
    have ha : p a = true := h a (List.mem_cons_self a ds)
    simp only [List.cons_append, List.dropWhile_cons_of_pos ha]
    exact ih (fun c hc => h c (List.mem_cons_of_mem a hc))

theorem takeWhile_all {p : Char → Bool} {l : Str} (h : ∀ c ∈ l, p c = true) :
    l.takeWhile p = l := by
  induction l with
  | nil => rfl
  | cons a l ih =>
    rw [List.takeWhile_cons_of_pos (h a (List.mem_cons_self a l))]
    rw [ih (fun c hc => h c (List.mem_cons_of_mem a hc))]

theorem dropWhile_shape (p : Char → Bool) (l : Str) :
    l.dropWhile p = [] ∨ ∃ c t, l.dropWhile p = c :: t ∧ p c = false := by
  induction l with
  | nil => exact Or.inl rfl
  | cons a l ih =>
    by_cases hp : p a
    · rw [List.dropWhile_cons_of_pos hp]; exact ih
    · rw [List.dropWhile_cons_of_neg hp]
      exact Or.inr ⟨a, l, rfl, by simpa using hp⟩

/-! ## The token lemmas behind claim C1 -/

theorem findAllTokens_head :
    ∀ (fuel : Nat) (s : Str), s.length ≤ fuel →
      (findAllTokens fuel s).head? = firstToken s := by
  intro fuel
  induction fuel with
  | zero =>
    intro s hs
    have : s = [] := List.length_eq_zero.mp (Nat.le_zero.mp hs)
    subst this; rfl
  | succ n ih =>
    intro s hs
    match s with
    | [] => rfl
    | c :: rest =>
      rw [findAllTokens, firstToken]
      cases hp : parseToken (c :: rest) with
      | some ds => simp
      | none =>
        simp only [List.head?]
        exact ih rest (by simpa [Nat.succ_le_succ_iff] using hs)

theorem check_commit_eq (message : Str) (pull_request_id : Nat) :
    check_commit message pull_request_id
      = match firstToken message with
        | some ds => decide (ds = (Nat.repr pull_request_id).data)
        | none => false := by
  have h := findAllTokens_head message.length message (Nat.le_refl _)
  rw [check_commit]
  cases hf : findAllTokens message.length message with
  | nil => rw [hf] at h; simp only [List.head?] at h; rw [← h]
  | cons r l => rw [hf] at h; simp only [List.head?] at h; rw [← h]

example : check_commit "fix: x (#42)".data 42 = true := by decide
example : check_commit "fix: x (#42)".data 43 = false := by decide
example : check_commit "no token here".data 42 = false := by decide
example : check_commit "(#7) then (#42)".data 42 = false := by decide
example : check_commit "(# 42)".data 42 = false := by decide
example : check_commit "(#042)".data 42 = false := by decide

theorem parseToken_eq_some_iff (s ds : Str) :
    parseToken s = some ds ↔
      (ds ≠ [] ∧ (∀ c ∈ ds, c.isDigit = true) ∧
        ∃ rest, s = '(' :: '#' :: (ds ++ ')' :: rest)) := by
  constructor
  · intro h
    match s with
    | [] => exact absurd h (by simp [parseToken])
    | [c1] => exact absurd h (by simp [parseToken])
    | c1 :: c2 :: rest =>
      rw [parseToken] at h
      simp only at h
      by_cases hc : c1 = '(' ∧ c2 = '#'
      · rw [if_pos hc] at h
        obtain ⟨rfl, rfl⟩ := hc
        by_cases hds : rest.takeWhile Char.isDigit = []
        · rw [if_pos hds] at h; exact absurd h (by simp)
        · rw [if_neg hds] at h
          by_cases hdw : (rest.dropWhile Char.isDigit).head? = some ')'
          · rw [if_pos hdw] at h
            simp only [Option.some.injEq] at h
            subst h
            refine ⟨hds, fun c hc => pred_of_mem_takeWhile hc, ?_⟩
            cases hdw2 : rest.dropWhile Char.isDigit with
            | nil => rw [hdw2] at hdw; exact absurd hdw (by simp)
            | cons y t =>
              rw [hdw2] at hdw
              simp only [List.head?, Option.some.injEq] at hdw
              subst hdw
              refine ⟨t, ?_⟩
              have := List.takeWhile_append_dropWhile (p := Char.isDigit) (l := rest)
              rw [hdw2] at this
              exact congrArg (fun l => '(' :: '#' :: l) this.symm
          · rw [if_neg hdw] at h; exact absurd h (by simp)
      · rw [if_neg hc] at h; exact absurd h (by simp)
  · rintro ⟨hne, hdig, rest, rfl⟩
    have hy : Char.isDigit ')' = false := by decide
    rw [parseToken]
    simp only
    rw [if_pos (⟨trivial, trivial⟩ : True ∧ True)]
    rw [takeWhile_app ')' rest hdig hy, dropWhile_app ')' rest hdig hy]
    rw [if_neg hne]
    simp

theorem firstToken_eq_some_iff (msg ds : Str) :
    firstToken msg = some ds ↔
      ∃ i, parseToken (msg.drop i) = some ds ∧
        ∀ j < i, parseToken (msg.drop j) = none := by
  induction msg with
  | nil =>
    simp only [firstToken]
    constructor
    · intro h; exact absurd h (by simp)
    · rintro ⟨i, hi, _⟩
      rw [List.drop_nil] at hi
      exact absurd hi (by simp [parseToken])
  | cons c rest ih =>
    cases hp : parseToken (c :: rest) with
    | some ds0 =>
      rw [firstToken, hp]
      constructor
      · intro h
        simp only [Option.some.injEq] at h
        subst h
        exact ⟨0, by simpa using hp, fun j hj => absurd hj (Nat.not_lt_zero j)⟩
      · rintro ⟨i, hi, hmin⟩
        cases i with
        | zero => rw [List.drop_zero] at hi; rw [← hi, hp]
        | succ n =>
          have := hmin 0 (Nat.succ_pos n)
          rw [List.drop_zero] at this
          rw [this] at hp
          exact absurd hp (by simp)
    | none =>
      rw [firstToken, hp, ih]
      constructor
      · rintro ⟨i, hi, hmin⟩
        refine ⟨i + 1, by simpa using hi, fun j hj => ?_⟩
        cases j with
        | zero => simpa using hp
        | succ m =>
          have := hmin m (Nat.lt_of_succ_lt_succ hj)
          simpa using this
      · rintro ⟨i, hi, hmin⟩
        cases i with
        | zero =>
          rw [List.drop_zero] at hi
          rw [hi] at hp; exact absurd hp (by simp)
        | succ n =>
          refine ⟨n, by simpa using hi, fun j hj => ?_⟩
          have := hmin (j + 1) (Nat.succ_lt_succ hj)
          simpa using this

/-- Claim C1: `check_commit` returns true if and only if the message contains at
least one parenthesized token of the form open-paren, hash, digits, close-paren,
and the first such token (the one at the least starting position) equals the PR
identifier rendered as a decimal string; for messages with no well-formed token
it returns false (no token means the existential fails). -/
theorem check_commit_correct (msg : Str) (pr : Nat) :
    check_commit msg pr = true ↔
      ∃ i, tokenAt msg i ((Nat.repr pr).data) ∧
        ∀ j < i, ∀ ds, ¬ tokenAt msg j ds := by
  rw [check_commit_eq]
  have hiff : (match firstToken msg with
      | some ds => decide (ds = (Nat.repr pr).data)
      | none => false) = true ↔ firstToken msg = some ((Nat.repr pr).data) := by
    cases h : firstToken msg with
    | some ds => simp
    | none => simp
  rw [hiff, firstToken_eq_some_iff]
  constructor
  · rintro ⟨i, hi, hmin⟩
    refine ⟨i, ?_, fun j hj ds hds => ?_⟩
    · have := (parseToken_eq_some_iff _ _).mp hi
      exact ⟨this.1, this.2.1, this.2.2⟩
    · have : parseToken (msg.drop j) = some ds :=
        (parseToken_eq_some_iff _ _).mpr ⟨hds.1, hds.2.1, hds.2.2⟩
      rw [hmin j hj] at this
      exact absurd this (by simp)
  · rintro ⟨i, hi, hmin⟩
    refine ⟨i, (parseToken_eq_some_iff _ _).mpr ⟨hi.1, hi.2.1, hi.2.2⟩,
      fun j hj => ?_⟩
    cases hp : parseToken (msg.drop j) with
    | none => rfl
    | some ds =>
      have := (parseToken_eq_some_iff _ _).mp hp
      exact absurd (⟨this.1, this.2.1, this.2.2⟩ : tokenAt msg j ds)
        (hmin j hj ds)

/-! ## The commit-locator lemmas behind claim C3 -/

theorem findCommitLog_fst (respond : Str → Str) (pr : Nat) (author : Str) :
    ∀ L : List Commit,
      (findCommitLog respond L pr author).1
        = L.find? (acceptedBy respond pr author) := by
  intro L
  induction L with
  | nil => rfl
  | cons c rest ih =>
    rw [findCommitLog]
    cases hchk : check_commit c.summary pr with
    | false =>
      have hacc : acceptedBy respond pr author c = false := by
        simp [acceptedBy, hchk]
      simp [List.find?_cons, hacc, ih]
    | true =>
      by_cases hauth : c.authorName = author
      · have hacc : acceptedBy respond pr author c = true := by
          simp [acceptedBy, hchk, hauth]
        simp [List.find?_cons, hacc, hauth]
      · cases hask : prompt_if_continue respond (promptAuthorMsg c author) with
        | true =>
          have hacc : acceptedBy respond pr author c = true := by
            simp [acceptedBy, hchk, hask]
          simp [List.find?_cons, hacc, hauth, hask]
        | false =>
          have hacc : acceptedBy respond pr author c = false := by
            simp [acceptedBy, hchk, hauth, hask]
          simp [List.find?_cons, hacc, hauth, hask, ih]

theorem findCommitLog_all_author (respond : Str → Str) (pr : Nat) (author : Str) :
    ∀ L : List Commit,
      (∀ c ∈ L, check_commit c.summary pr = true → c.authorName = author) →
      findCommitLog respond L pr author
        = (L.find? (fun c => check_commit c.summary pr), []) := by
  intro L
  induction L with
  | nil => intro _; rfl
  | cons c rest ih =>
    intro h
    rw [findCommitLog]
    cases hchk : check_commit c.summary pr with
    | false =>
      rw [ih (fun d hd => h d (List.mem_cons_of_mem c hd))]
      simp [List.find?_cons, hchk]
    | true =>
      have hauth : c.authorName = author := h c (List.mem_cons_self c rest) hchk
      simp [List.find?_cons, hchk, hauth]

/-- Claim C3: the commit locator scans the list in order and returns the first
commit accepted by the scan — one whose summary matches the PR identifier and
whose author either equals the expected author (returned without any prompt:
when every matching commit in the list has the expected author the prompt log
is empty and the result is the plain first match) or is accepted at the
interactive prompt; a declined prompt continues the scan with the remaining
commits; when no commit is accepted the result is `none`. -/
theorem find_commit_spec (respond : Str → Str) (L : List Commit) (pr : Nat)
    (author : Str) :
    find_commit respond L pr author = L.find? (acceptedBy respond pr author)
    ∧ ((∀ c ∈ L, check_commit c.summary pr = true → c.authorName = author) →
        (findCommitLog respond L pr author).2 = [] ∧
          find_commit respond L pr author
            = L.find? (fun c => check_commit c.summary pr))
    ∧ (find_commit respond L pr author = none →
        ∀ c ∈ L, acceptedBy respond pr author c = false) := by
  refine ⟨findCommitLog_fst respond pr author L, fun h => ?_, fun hnone => ?_⟩
  · rw [find_commit, findCommitLog_all_author respond pr author L h]
    exact ⟨rfl, rfl⟩
  · rw [find_commit, findCommitLog_fst respond pr author L] at hnone
    intro c hc
    have := List.find?_eq_none.mp hnone c hc
    simpa using this

theorem find_commit_spec_witness :
    (findCommitLog respondYes [sampleCommit] 42 "alice".data).2 = [] ∧
      find_commit respondYes [sampleCommit] 42 "alice".data
        = [sampleCommit].find? (fun c => check_commit c.summary 42) :=
  (find_commit_spec respondYes [sampleCommit] 42 "alice".data).2.1 (by decide)

/-! ## The path lemmas behind claim C4 -/

theorem pyStartsWith_iff : ∀ (s p : Str), pyStartsWith s p = true ↔ ∃ r, s = p ++ r := by
  intro s p
  induction p generalizing s with
  | nil =>
    simp only [pyStartsWith, List.nil_append]
    exact ⟨fun _ => ⟨s, rfl⟩, fun _ => trivial⟩
  | cons pc ps ih =>
    cases s with
    | nil =>
      simp only [pyStartsWith]
      constructor
      · intro h; exact absurd h (by simp)
      · rintro ⟨r, h⟩; exact absurd h (by simp)
    | cons c cs =>
      rw [pyStartsWith]
      simp only [Bool.and_eq_true, beq_iff_eq, ih]
      constructor
      · rintro ⟨rfl, r, rfl⟩; exact ⟨r, rfl⟩
      · rintro ⟨r, h⟩
        rw [List.cons_append] at h
        injection h with h1 h2
        exact ⟨h1, r, h2⟩

theorem splitSlash_head (s : Str) : ∃ t, splitSlash s = s.takeWhile notSlash :: t := by
  induction s with
  | nil => exact ⟨[], rfl⟩
  | cons c rest ih =>
    obtain ⟨t, ht⟩ := ih
    simp only [splitSlash, ht]
    by_cases hc : c = '/'
    · subst hc
      rw [if_pos rfl]
      exact ⟨rest.takeWhile notSlash :: t,
        by rw [List.takeWhile_cons_of_neg (by decide : ¬ notSlash '/' = true)]⟩
    · rw [if_neg hc]
      exact ⟨t, by rw [List.takeWhile_cons_of_pos
        (by simpa [notSlash] using hc : notSlash c = true)]⟩

theorem splitSlash_sf_append (xs : Str) (r : Str) (h : ∀ c ∈ xs, c ≠ '/') :
    splitSlash (xs ++ '/' :: r) = xs :: splitSlash r := by
  induction xs with
  | nil =>
    rw [List.nil_append, splitSlash]
    cases splitSlash r <;> simp
  | cons x xs ih =>
    have hx : x ≠ '/' := h x (List.mem_cons_self x xs)
    have hxs : ∀ c ∈ xs, c ≠ '/' := fun c hc => h c (List.mem_cons_of_mem x hc)
    rw [List.cons_append, splitSlash, ih hxs]
    simp [hx]

theorem takeWhile_notSlash_eq (r dag : Str) :
    r.takeWhile notSlash = dag ↔
      ((∀ c ∈ dag, c ≠ '/') ∧ (r = dag ∨ ∃ t, r = dag ++ '/' :: t)) := by
  constructor
  · intro h
    have hall : ∀ c ∈ dag, c ≠ '/' := by
      intro c hc
      rw [← h] at hc
      have := pred_of_mem_takeWhile hc
      simpa [notSlash] using this
    refine ⟨hall, ?_⟩
    rcases dropWhile_shape notSlash r with hnil | ⟨y, t, hyt, hy⟩
    · left
      have happ := List.takeWhile_append_dropWhile (p := notSlash) (l := r)
      rw [hnil, List.append_nil, h] at happ
      exact happ.symm
    · right
      have hy2 : y = '/' := by simpa [notSlash] using hy
      subst hy2
      refine ⟨t, ?_⟩
      have happ := List.takeWhile_append_dropWhile (p := notSlash) (l := r)
      rw [hyt, h] at happ
      exact happ.symm
  · rintro ⟨hall, rfl | ⟨t, rfl⟩⟩
    · exact takeWhile_all (fun c hc => by simpa [notSlash] using hall c hc)
    · exact takeWhile_app '/' t
        (fun c hc => by simpa [notSlash] using hall c hc) (by decide)

theorem inDagDir_iff (file dag_name : Str) :
    inDagDir file dag_name = true ↔ decomposesInDag file dag_name := by
  rw [inDagDir, Bool.and_eq_true, pyStartsWith_iff, decide_eq_true_eq,
    decomposesInDag]
  constructor
  · rintro ⟨⟨r, rfl⟩, hsec⟩
    have hsp : splitSlash ("dags/".data ++ r) = "dags".data :: splitSlash r := by
      rw [show "dags/".data ++ r = "dags".data ++ '/' :: r from rfl]
      exact splitSlash_sf_append _ r (by decide)
    rw [hsp] at hsec
    obtain ⟨t, ht⟩ := splitSlash_head r
    rw [ht] at hsec
    simp only [List.getElem?_cons_succ, List.getElem?_cons_zero,
      Option.some.injEq] at hsec
    rw [takeWhile_notSlash_eq] at hsec
    obtain ⟨hall, hcase⟩ := hsec
    refine ⟨fun hm => (hall '/' hm) rfl, ?_⟩
    rcases hcase with rfl | ⟨t2, rfl⟩
    · exact Or.inl rfl
    · exact Or.inr ⟨t2, by rw [List.append_assoc]⟩
  · rintro ⟨hns, hcase⟩
    have hall : ∀ c ∈ dag_name, c ≠ '/' := fun c hc he => hns (he ▸ hc)
    rcases hcase with rfl | ⟨t, rfl⟩
    · refine ⟨⟨dag_name, rfl⟩, ?_⟩
      have hsp : splitSlash ("dags/".data ++ dag_name)
          = "dags".data :: splitSlash dag_name := by
        rw [show "dags/".data ++ dag_name = "dags".data ++ '/' :: dag_name from rfl]
        exact splitSlash_sf_append _ dag_name (by decide)
      rw [hsp]
      obtain ⟨t2, ht2⟩ := splitSlash_head dag_name
      rw [ht2]
      simp only [List.getElem?_cons_succ, List.getElem?_cons_zero,
        Option.some.injEq]
      exact (takeWhile_notSlash_eq dag_name dag_name).mpr ⟨hall, Or.inl rfl⟩
    · refine ⟨⟨dag_name ++ '/' :: t, by rw [List.append_assoc]⟩, ?_⟩
      have hsp : splitSlash ("dags/".data ++ (dag_name ++ '/' :: t))
          = "dags".data :: splitSlash (dag_name ++ '/' :: t) := by
        rw [show "dags/".data ++ (dag_name ++ '/' :: t)
          = "dags".data ++ '/' :: (dag_name ++ '/' :: t) from rfl]
        exact splitSlash_sf_append _ _ (by decide)
      rw [show "dags/".data ++ dag_name ++ '/' :: t
        = "dags/".data ++ (dag_name ++ '/' :: t) from by rw [List.append_assoc]]
      rw [hsp]
      obtain ⟨t2, ht2⟩ := splitSlash_head (dag_name ++ '/' :: t)
      rw [ht2]
      simp only [List.getElem?_cons_succ, List.getElem?_cons_zero,
        Option.some.injEq]
      exact (takeWhile_notSlash_eq _ dag_name).mpr ⟨hall, Or.inr ⟨t, rfl⟩⟩

/-! ## The scope-validation lemmas behind claim C4 -/

theorem checkChangesLog_fst (respond : Str → Str) (dag_name : Str) :
    ∀ files : List Str,
      (checkChangesLog respond files dag_name).1
        = files.all (fun f => inDagDir f dag_name ||
            prompt_if_continue respond (violMsg f dag_name)) := by
  intro files
  induction files with
  | nil => rfl
  | cons f rest ih =>
    rw [checkChangesLog]
    cases hin : inDagDir f dag_name with
    | true => simp [List.all_cons, hin, ih]
    | false =>
      cases hask : prompt_if_continue respond (violMsg f dag_name) with
      | true => simp [List.all_cons, hin, hask, ih]
      | false => simp [List.all_cons, hin, hask]

theorem checkChangesLog_all_in (respond : Str → Str) (dag_name : Str) :
    ∀ files : List Str, (∀ f ∈ files, inDagDir f dag_name = true) →
      checkChangesLog respond files dag_name = (true, []) := by
  intro files
  induction files with
  | nil => intro _; rfl
  | cons f rest ih =>
    intro h
    rw [checkChangesLog, if_pos (h f (List.mem_cons_self f rest))]
    exact ih (fun g hg => h g (List.mem_cons_of_mem f hg))

theorem checkChangesLog_log (respond : Str → Str) (dag_name : Str) :
    ∀ files : List Str,
      (checkChangesLog respond files dag_name).1 = true →
      (checkChangesLog respond files dag_name).2
        = (files.filter (fun f => !(inDagDir f dag_name))).map
            (fun f => violMsg f dag_name) := by
  intro files
  induction files with
  | nil => intro _; rfl
  | cons f rest ih =>
    intro h
    by_cases hin : inDagDir f dag_name = true
    · rw [checkChangesLog, if_pos hin] at h ⊢
      rw [ih h, List.filter_cons]
      simp [hin]
    · have hin2 : inDagDir f dag_name = false := by simpa using hin
      by_cases hask : prompt_if_continue respond (violMsg f dag_name) = true
      · rw [checkChangesLog, if_neg hin, if_pos hask] at h ⊢
        simp only at h
        rw [List.filter_cons]
        simp only [hin2, Bool.not_false, if_pos]
        simp only [List.map_cons]
        exact congrArg (violMsg f dag_name :: ·) (ih h)
      · rw [checkChangesLog, if_neg hin, if_neg hask] at h
        exact absurd h (by simp)

/-- Claim C4: scope validation returns true exactly when every changed path is
in the workflow directory or its violation prompt is accepted; when every path
decomposes as the prefix directory, the workflow name and a remainder, it
returns true without issuing any prompt; when it returns true the prompts
issued are exactly one per non-matching path, in order (so it fails exactly
when one of the issued prompts is declined); and the code's condition agrees
with the decomposition reading of the path. -/
theorem check_changes_spec (respond : Str → Str) (files : List Str)
    (dag_name : Str) :
    check_changes_in_dag_only respond files dag_name
        = files.all (fun f => inDagDir f dag_name ||
            prompt_if_continue respond (violMsg f dag_name))
    ∧ ((∀ f ∈ files, decomposesInDag f dag_name) →
        checkChangesLog respond files dag_name = (true, []))
    ∧ (check_changes_in_dag_only respond files dag_name = true →
        (checkChangesLog respond files dag_name).2
          = (files.filter (fun f => !(inDagDir f dag_name))).map
              (fun f => violMsg f dag_name))
    ∧ (∀ f, inDagDir f dag_name = true ↔ decomposesInDag f dag_name) := by
  refine ⟨checkChangesLog_fst respond dag_name files, fun h => ?_,
    fun h => checkChangesLog_log respond dag_name files h,
    fun f => inDagDir_iff f dag_name⟩
  exact checkChangesLog_all_in respond dag_name files
    (fun f hf => (inDagDir_iff f dag_name).mpr (h f hf))

theorem check_changes_spec_witness :
    checkChangesLog respondNo ["dags/install/a.py".data] "install".data
      = (true, []) :=
  (check_changes_spec respondNo ["dags/install/a.py".data] "install".data).2.1
    (by
      intro f hf
      simp only [List.mem_singleton] at hf
      subst hf
      exact ⟨by decide, Or.inr ⟨"a.py".data, rfl⟩⟩)

/-! ## The manifest lemmas behind claims C8 and C9 -/

theorem getField_setField_self :
    ∀ (fs : List (Str × Json)) (k : Str) (v : Json),
      getField (setField fs k v) k = some v := by
  intro fs k v
  induction fs with
  | nil => simp [setField, getField]
  | cons kv rest ih =>
    obtain ⟨k0, w⟩ := kv
    by_cases hk : k0 = k
    · subst hk; simp [setField, getField]
    · simp [setField, getField, hk, ih]

theorem getField_setField_ne :
    ∀ (fs : List (Str × Json)) (k : Str) (v : Json) (k' : Str), k' ≠ k →
      getField (setField fs k v) k' = getField fs k' := by
  intro fs k v k' hk
  induction fs with
  | nil => simp [setField, getField, Ne.symm hk]
  | cons kv rest ih =>
    obtain ⟨k0, w⟩ := kv
    by_cases h0 : k0 = k
    · subst h0
      simp only [setField, if_pos rfl, getField]
      by_cases h1 : k0 = k'
      · exact absurd h1.symm hk
      · simp [h1]
    · simp only [setField, if_neg h0, getField]
      by_cases h1 : k0 = k'
      · simp [h1]
      · simp [h1, ih]

theorem setField_setField :
    ∀ (fs : List (Str × Json)) (k : Str) (v w : Json),
      setField (setField fs k v) k w = setField fs k w := by
  intro fs k v w
  induction fs with
  | nil => simp [setField]
  | cons kv rest ih =>
    obtain ⟨k0, u⟩ := kv
    by_cases hk : k0 = k
    · subst hk; simp [setField]
    · simp [setField, hk, ih]

/-- Claim C8: the manifest mutation is idempotent on the target key — when
updating a document succeeds, applying the same update to the result yields
that same result again. -/
theorem updateManifest_idem (data : Json) (dag_name commit_hash : Str)
    (data2 : Json)
    (h : updateManifest data dag_name commit_hash = .ok data2) :
    updateManifest data2 dag_name commit_hash = .ok data2 := by
  match data with
  | .null => exact absurd h (by simp [updateManifest])
  | .bool _ => exact absurd h (by simp [updateManifest])
  | .num _ => exact absurd h (by simp [updateManifest])
  | .str _ => exact absurd h (by simp [updateManifest])
  | .arr _ => exact absurd h (by simp [updateManifest])
  | .obj fs =>
    rw [updateManifest] at h
    cases hv : getField fs "version".data with
    | none => rw [hv] at h; exact absurd h (by simp)
    | some v =>
      rw [hv] at h
      match v with
      | .null => exact absurd h (by simp)
      | .bool _ => exact absurd h (by simp)
      | .num _ => exact absurd h (by simp)
      | .str _ => exact absurd h (by simp)
      | .arr _ => exact absurd h (by simp)
      | .obj vfs =>
        simp only at h
        cases hd : getField vfs "dags".data with
        | none => rw [hd] at h; exact absurd h (by simp)
        | some d =>
          rw [hd] at h
          match d with
          | .null => exact absurd h (by simp)
          | .bool _ => exact absurd h (by simp)
          | .num _ => exact absurd h (by simp)
          | .str _ => exact absurd h (by simp)
          | .arr _ => exact absurd h (by simp)
          | .obj dfs =>
            simp only [Except.ok.injEq] at h
            subst h
            rw [updateManifest]
            rw [getField_setField_self]
            simp only
            rw [getField_setField_self]
            simp only
            rw [setField_setField, setField_setField, setField_setField]

theorem updateManifest_idem_witness :
    updateManifest (Json.obj [("version".data, Json.obj [("dags".data,
        Json.obj [("install".data, Json.str "def456".data)])])]) "install".data
        "def456".data
      = .ok (Json.obj [("version".data, Json.obj [("dags".data,
          Json.obj [("install".data, Json.str "def456".data)])])]) :=
  updateManifest_idem sampleManifest "install".data "def456".data _ rfl

/-- Claim C9: when the document has the nested objects `version` and
`version.dags`, the mutation succeeds and overwrites exactly one key — every
key of the top object other than `version`, every key of the `version` object
other than `dags`, and every entry of `version.dags` other than the target
workflow name keep their previous value, while the target workflow name maps
to the new commit hash. -/
theorem updateManifest_frame (fs vfs dfs : List (Str × Json))
    (dag_name commit_hash : Str)
    (hv : getField fs "version".data = some (.obj vfs))
    (hd : getField vfs "dags".data = some (.obj dfs)) :
    updateManifest (.obj fs) dag_name commit_hash
      = .ok (.obj (setField fs "version".data (.obj (setField vfs "dags".data
          (.obj (setField dfs dag_name (.str commit_hash)))))))
    ∧ (∀ k, k ≠ "version".data →
        getField (setField fs "version".data (.obj (setField vfs "dags".data
          (.obj (setField dfs dag_name (.str commit_hash)))))) k
          = getField fs k)
    ∧ (∀ k, k ≠ "dags".data →
        getField (setField vfs "dags".data
          (.obj (setField dfs dag_name (.str commit_hash)))) k
          = getField vfs k)
    ∧ (∀ k, k ≠ dag_name →
        getField (setField dfs dag_name (.str commit_hash)) k
          = getField dfs k)
    ∧ getField (setField dfs dag_name (.str commit_hash)) dag_name
        = some (.str commit_hash) := by
  refine ⟨?_, fun k hk => getField_setField_ne _ _ _ _ hk,
    fun k hk => getField_setField_ne _ _ _ _ hk,
    fun k hk => getField_setField_ne _ _ _ _ hk,
    getField_setField_self _ _ _⟩
  rw [updateManifest, hv]
  simp only
  rw [hd]

theorem updateManifest_frame_witness :
    getField (setField [("install".data, Json.str "abc123".data)]
        "install".data (.str "def456".data)) "install".data
      = some (.str "def456".data) :=
  (updateManifest_frame
      [("version".data, Json.obj [("dags".data,
        Json.obj [("install".data, Json.str "abc123".data)])])]
      [("dags".data, Json.obj [("install".data, Json.str "abc123".data)])]
      [("install".data, Json.str "abc123".data)]
      "install".data "def456".data rfl rfl).2.2.2.2

/-! ## The run-level lemmas behind claims C2, C5, C6, C7 and C10 -/

theorem find_commit_none (respond : Str → Str) (pr : Nat) (author : Str)
    (L : List Commit) (h : ∀ c ∈ L, check_commit c.summary pr = false) :
    find_commit respond L pr author = none := by
  rw [find_commit, findCommitLog_fst]
  apply List.find?_eq_none.mpr
  intro c hc
  simp [acceptedBy, h c hc]

theorem mainRun_take10 (env : Env) :
    mainRun { env with history := env.history.take 10 } = mainRun env := by
  obtain ⟨pid, pauth, pdag, dfile, hist, resp, f1, f2⟩ := env
  simp only [mainRun, List.take_take, Nat.min_self]

/-- Claim C2: the commit locator is applied to the 10 most recent commits only
— the whole run is unchanged when the history is truncated to its first 10
entries — and when no commit among those 10 matches the PR identifier the run
ends with the fatal assertion message for a missing commit, having performed
no git side effect beyond the checkout and the pull. -/
theorem commit_locator_window (env : Env) (d : Json)
    (hd : env.deployFile = some d)
    (hno : ∀ c ∈ env.history.take 10, check_commit c.summary env.pr_id = false) :
    mainRun env
        = ⟨.fatal "Commit not found".data, [.checkoutMain, .pull], some d⟩
    ∧ mainRun env = mainRun { env with history := env.history.take 10 } := by
  have hfind : find_commit env.respond (env.history.take 10) env.pr_id
      env.pr_author = none :=
    find_commit_none _ _ _ _ hno
  exact ⟨by simp [mainRun, hd, hfind], (mainRun_take10 env).symm⟩

theorem commit_locator_window_witness :
    mainRun noMatchEnv
      = ⟨.fatal "Commit not found".data, [.checkoutMain, .pull],
          some sampleManifest⟩ :=
  (commit_locator_window noMatchEnv sampleManifest rfl (by decide)).1

/-- Claim C6: when the located commit's change scope is rejected (the
validator returns false), the run ends as a clean, non-fatal abort; the
manifest file keeps its previous content and no branch-creation event occurs. -/
theorem scope_abort_clean (env : Env) (d : Json) (c : Commit)
    (hd : env.deployFile = some d)
    (hfind : find_commit env.respond (env.history.take 10) env.pr_id
      env.pr_author = some c)
    (hscope : check_changes_in_dag_only env.respond c.files env.pr_dag_name
      = false) :
    mainRun env = ⟨.aborted, [.checkoutMain, .pull], some d⟩
    ∧ (mainRun env).deployFile = env.deployFile
    ∧ ∀ n, Ev.branchCreate n ∉ (mainRun env).events := by
  have h1 : mainRun env = ⟨.aborted, [.checkoutMain, .pull], some d⟩ := by
    simp [mainRun, hd, hfind, hscope]
  refine ⟨h1, ?_, ?_⟩
  · rw [h1, hd]
  · intro n
    rw [h1]
    simp

theorem scope_abort_clean_witness :
    mainRun abortEnv = ⟨.aborted, [.checkoutMain, .pull], some sampleManifest⟩ :=
  (scope_abort_clean abortEnv sampleManifest offScopeCommit rfl rfl rfl).1

/-- Claim C7: when the run reaches the deploy-commit step, a failing first
add+commit attempt is followed by exactly one retry carrying the same two
message arguments; a failure of the retry ends the run fatally with the git
error, and a successful first attempt is never retried. -/
theorem commit_retry_spec (env : Env) (d : Json) (c : Commit) (d2 : Json)
    (hd : env.deployFile = some d)
    (hfind : find_commit env.respond (env.history.take 10) env.pr_id
      env.pr_author = some c)
    (hscope : check_changes_in_dag_only env.respond c.files env.pr_dag_name
      = true)
    (hupd : updateManifest d env.pr_dag_name c.hexsha = .ok d2) :
    (env.commitFail1 = false →
      mainRun env = ⟨.success,
        [.checkoutMain, .pull, .branchCreate (deployBranchName env.pr_id),
          .manifestWrite, .gitAdd,
          .commitAttempt (commitMsg1 env.pr_id)
            (commitMsg2 env.pr_id c.hexsha env.pr_author) true,
          .push (deployBranchName env.pr_id)], some d2⟩)
    ∧ (env.commitFail1 = true → env.commitFail2 = false →
      mainRun env = ⟨.success,
        [.checkoutMain, .pull, .branchCreate (deployBranchName env.pr_id),
          .manifestWrite, .gitAdd,
          .commitAttempt (commitMsg1 env.pr_id)
            (commitMsg2 env.pr_id c.hexsha env.pr_author) false,
          .gitAdd,
          .commitAttempt (commitMsg1 env.pr_id)
            (commitMsg2 env.pr_id c.hexsha env.pr_author) true,
          .push (deployBranchName env.pr_id)], some d2⟩)
    ∧ (env.commitFail1 = true → env.commitFail2 = true →
      mainRun env = ⟨.fatal "GitCommandError".data,
        [.checkoutMain, .pull, .branchCreate (deployBranchName env.pr_id),
          .manifestWrite, .gitAdd,
          .commitAttempt (commitMsg1 env.pr_id)
            (commitMsg2 env.pr_id c.hexsha env.pr_author) false,
          .gitAdd,
          .commitAttempt (commitMsg1 env.pr_id)
            (commitMsg2 env.pr_id c.hexsha env.pr_author) false],
        some d2⟩) := by
  refine ⟨fun h1 => ?_, fun h1 h2 => ?_, fun h1 h2 => ?_⟩
  · simp [mainRun, hd, hfind, hscope, hupd, h1]
  · simp [mainRun, hd, hfind, hscope, hupd, h1, h2]
  · simp [mainRun, hd, hfind, hscope, hupd, h1, h2]

theorem commit_retry_spec_witness :
    mainRun sampleEnv = ⟨.success,
      [.checkoutMain, .pull, .branchCreate (deployBranchName 42),
        .manifestWrite, .gitAdd,
        .commitAttempt (commitMsg1 42)
          (commitMsg2 42 "abc123".data "alice".data) true,
        .push (deployBranchName 42)], some sampleManifest⟩ :=
  (commit_retry_spec sampleEnv sampleManifest sampleCommit sampleManifest
    rfl rfl rfl rfl).1 rfl

/-- Claim C10: the fail-fast check at the start of the run only tests that the
manifest file exists, not its contents; when the manifest lacks the key
`version`, or its `version` object lacks the key `dags`, the run raises an
uncaught KeyError during the mutation — after the deploy branch has already
been created and checked out — and the manifest file keeps its previous
content. -/
theorem manifest_keyerror_after_branch (env : Env) (d : Json) (c : Commit)
    (hd : env.deployFile = some d)
    (hfind : find_commit env.respond (env.history.take 10) env.pr_id
      env.pr_author = some c)
    (hscope : check_changes_in_dag_only env.respond c.files env.pr_dag_name
      = true)
    (hmiss : (∃ fs, d = .obj fs ∧ getField fs "version".data = none) ∨
      (∃ fs vfs, d = .obj fs ∧ getField fs "version".data = some (.obj vfs) ∧
        getField vfs "dags".data = none)) :
    ∃ k, mainRun env
        = ⟨.fatal ("KeyError: ".data ++ k),
            [.checkoutMain, .pull, .branchCreate (deployBranchName env.pr_id)],
            some d⟩ := by
  have hupd : ∃ k, updateManifest d env.pr_dag_name c.hexsha
      = .error (.keyError k) := by
    rcases hmiss with ⟨fs, rfl, hver⟩ | ⟨fs, vfs, rfl, hver, hdag⟩
    · exact ⟨"version".data, by simp only [updateManifest, hver]⟩
    · exact ⟨"dags".data, by simp only [updateManifest, hver, hdag]⟩
  obtain ⟨k, hk⟩ := hupd
  refine ⟨k, ?_⟩
  simp [mainRun, hd, hfind, hscope, hk, pyErrMsg]

theorem manifest_keyerror_witness :
    ∃ k, mainRun badManifestEnv
      = ⟨.fatal ("KeyError: ".data ++ k),
          [.checkoutMain, .pull, .branchCreate (deployBranchName 42)],
          some (.obj [])⟩ :=
  manifest_keyerror_after_branch badManifestEnv (.obj []) sampleCommit
    rfl rfl rfl (Or.inl ⟨[], rfl, rfl⟩)

/-- Claim C5, counterexample: in a fully successful concrete run the event
trace is checkout, pull, branch creation, manifest write, add, commit, push —
so there are no positions at which the manifest write precedes the creation of
the deploy branch: the branch is created first, and the claimed order (manifest
update strictly before branch creation) is false for this run. -/
theorem deploy_order_counterexample :
    (mainRun sampleEnv).events
        = [Ev.checkoutMain, Ev.pull, Ev.branchCreate ("deploy-42".data),
            Ev.manifestWrite, Ev.gitAdd,
            Ev.commitAttempt (commitMsg1 42)
              (commitMsg2 42 "abc123".data "alice".data) true,
            Ev.push ("deploy-42".data)]
    ∧ ¬ ∃ j < (mainRun sampleEnv).events.length, ∃ i < j,
        (mainRun sampleEnv).events[i]? = some Ev.manifestWrite ∧
          (mainRun sampleEnv).events[j]?
            = some (Ev.branchCreate ("deploy-42".data)) :=
  ⟨rfl, by decide⟩

/-- Claim C5, amended: in every run the deploy branch is created strictly
before the manifest file is rewritten — whenever the manifest-write event
occurs in the trace, it is immediately preceded by the branch-creation event
for `deploy-` followed by the PR id; the linear order is sync, commit located,
scope validated, branch created, manifest updated, committed, pushed. -/
theorem branch_before_manifest (env : Env)
    (h : Ev.manifestWrite ∈ (mainRun env).events) :
    ∃ l1 l2, (mainRun env).events
      = l1 ++ Ev.branchCreate (deployBranchName env.pr_id)
          :: Ev.manifestWrite :: l2 := by
  cases hdf : env.deployFile with
  | none =>
    simp only [mainRun, hdf] at h
    simp at h
  | some d =>
    cases hfind : find_commit env.respond (env.history.take 10) env.pr_id
        env.pr_author with
    | none =>
      simp only [mainRun, hdf, hfind] at h
      simp at h
    | some c =>
      cases hscope : check_changes_in_dag_only env.respond c.files
          env.pr_dag_name with
      | false =>
        simp only [mainRun, hdf, hfind, hscope] at h
        simp at h
      | true =>
        cases hupd : updateManifest d env.pr_dag_name c.hexsha with
        | error e =>
          simp only [mainRun, hdf, hfind, hscope, hupd] at h
          simp at h
        | ok d2 =>
          cases hf1 : env.commitFail1 with
          | false =>
            exact ⟨[.checkoutMain, .pull],
              [.gitAdd,
                .commitAttempt (commitMsg1 env.pr_id)
                  (commitMsg2 env.pr_id c.hexsha env.pr_author) true,
                .push (deployBranchName env.pr_id)],
              by simp [mainRun, hdf, hfind, hscope, hupd, hf1]⟩
          | true =>
            cases hf2 : env.commitFail2 with
            | false =>
              exact ⟨[.checkoutMain, .pull],
                [.gitAdd,
                  .commitAttempt (commitMsg1 env.pr_id)
                    (commitMsg2 env.pr_id c.hexsha env.pr_author) false,
                  .gitAdd,
                  .commitAttempt (commitMsg1 env.pr_id)
                    (commitMsg2 env.pr_id c.hexsha env.pr_author) true,
                  .push (deployBranchName env.pr_id)],
                by simp [mainRun, hdf, hfind, hscope, hupd, hf1, hf2]⟩
            | true =>
              exact ⟨[.checkoutMain, .pull],
                [.gitAdd,
                  .commitAttempt (commitMsg1 env.pr_id)
                    (commitMsg2 env.pr_id c.hexsha env.pr_author) false,
                  .gitAdd,
                  .commitAttempt (commitMsg1 env.pr_id)
                    (commitMsg2 env.pr_id c.hexsha env.pr_author) false],
                by simp [mainRun, hdf, hfind, hscope, hupd, hf1, hf2]⟩

theorem branch_before_manifest_witness :
    ∃ l1 l2, (mainRun sampleEnv).events
      = l1 ++ Ev.branchCreate (deployBranchName sampleEnv.pr_id)
          :: Ev.manifestWrite :: l2 :=
  branch_before_manifest sampleEnv (by decide)
